import Mathlib

/-!
# Verification of the iris-mpc MPC core against its specification

Shallow embedding, in Lean 4, of the parts of the `iris-mpc` repository that
the specification's checkable sentences are about:

* the replicated secret-sharing procedure and the masked-threshold MSB
  formula of `iris-mpc-gpu/tests/threshold.rs` (`rep_share`,
  `real_result_msb`, `pack_with_device_padding`, `open`);
* the fixed-size `SyncState` wire encoding of
  `iris-mpc-gpu/src/server/sync_nccl.rs` (`serialize`, `deserialize`,
  `deserialize_all`) and the rollback decision of the sync protocol;
* the `NetworkValue` wire codec of
  `iris-mpc-cpu/src/next_gen_network/value.rs`;
* the redacting `Debug` implementations of `iris-mpc-upgrade/src/config.rs`.

Machine integers are modelled as `Nat` (or `Int` where signedness matters)
with explicit reductions `% 2^w`; wrapping subtraction `x - y` on `uN` is
modelled as `(x + 2^N - y) % 2^N` on values already reduced mod `2^N`.
Fallible operations return `Option`/`Except`.  The serialization performed
by the external `bincode` library is not part of the repository's sources;
it is modelled, following the specification's description of the wire
format, as a deterministic little-endian tagged encoding.
-/

namespace IrisMPC

/-! ## Byte-level primitives shared by the wire codecs

Bytes are natural numbers; encoders only ever emit values `< 256`.
`leBytes w k` is the `w`-byte little-endian encoding of `k` (mod `256^w`),
`readLE w` the matching reader.  These model the fixed-width integer layout
used by the wire encodings of `SyncState` and `NetworkValue`.
-/

/-- Little-endian fixed-width encoding: `w` bytes of `k`, least significant
byte first (the layout of `u16`/`u32`/`u64` fields on the wire). -/
def leBytes : Nat → Nat → List Nat
  | 0, _ => []
  | w + 1, k => k % 256 :: leBytes w (k / 256)

/-- Read a `w`-byte little-endian integer from the front of a buffer,
returning the value and the remaining bytes; fails on a short buffer. -/
def readLE : Nat → List Nat → Option (Nat × List Nat)
  | 0, l => some (0, l)
  | _ + 1, [] => none
  | w + 1, b :: rest =>
    match readLE w rest with
    | some (v, r) => some (b + 256 * v, r)
    | none => none

/-- Read exactly `n` raw bytes from the front of a buffer. -/
def readN (n : Nat) (l : List Nat) : Option (List Nat × List Nat) :=
  if n ≤ l.length then some (l.take n, l.drop n) else none

/-- Worker for `chunksOf`: peel chunks of `n` off the front while fuel
lasts. -/
def chunksOfGo (n : Nat) : Nat → List α → List (List α)
  | _, [] => []
  | 0, _ :: _ => []
  | fuel + 1, a :: l => (a :: l).take n :: chunksOfGo n fuel ((a :: l).drop n)

/-- Split a list into consecutive chunks of length `n` (the last chunk may be
shorter), mirroring Rust's `slice::chunks(n)`.  For `n = 0` (which panics in
Rust and never occurs here) the result is `[]`.  The fuel of `chunksOfGo`
starts at the list length, which each step strictly decreases when
`0 < n`. -/
def chunksOf (n : Nat) (l : List α) : List (List α) :=
  if n = 0 then [] else chunksOfGo n l.length l

/-! ## Replicated secret sharing (`threshold.rs::rep_share`)

`rep_share` splits a `u16` value into three additive shares `a`, `b`,
`c = value - a - b` (wrapping mod `2^16`) and hands party `id` its pair of
shares.  The random draws `a` and `b` are explicit arguments here. -/

/-- The third additive share `value - a - b` over `u16` wrapping
arithmetic. -/
def thirdShare (value a b : Nat) : Nat :=
  (((value : Int) - a - b) % 2 ^ 16).toNat

/-- `rep_share` from `iris-mpc-gpu/tests/threshold.rs`: party `id`'s pair of
replicated shares of `value`, given the in-procedure random draws `a` and
`b`.  The Rust `unreachable!()` arm for `id ≥ 3` is modelled as `(0, 0)`;
all statements below restrict `id` to `{0, 1, 2}`. -/
def rep_share (value a b : Nat) (id : Nat) : Nat × Nat :=
  let c := thirdShare value a b
  match id with
  | 0 => (a, c)
  | 1 => (b, a)
  | 2 => (c, b)
  | _ => (0, 0)

/-! ## The masked-threshold MSB formula (`threshold.rs::real_result_msb`)

For one `(code, mask)` pair of `u16` dot-products the reference plaintext
computes, in `u64` arithmetic,
`r = (m * A - (c << 16)) % 2^32` and extracts bit `31`.
The `u64` subtraction wraps mod `2^64`; both reductions are kept explicit.
-/

/-- `B_BITS` from `threshold.rs`: the fixed-point denominator precision. -/
def B_BITS : Nat := 16

/-- The per-pair MSB computed by `real_result_msb` in `threshold.rs`:
`r = ((m as u64) * A - ((c as u64) << B_BITS)) % 2^(16 + B_BITS)` with
wrapping `u64` subtraction, then bit `B_BITS + 16 - 1` of `r`. -/
def real_result_msb_one (A c m : Nat) : Bool :=
  let prod := m * A % 2 ^ 64
  let shifted := c * 2 ^ B_BITS % 2 ^ 64
  let r := (prod + 2 ^ 64 - shifted) % 2 ^ 64 % 2 ^ (16 + B_BITS)
  (r >>> (B_BITS + 16 - 1)) &&& 1 == 1

/-- The signed value a `u16` bit pattern stands for: the sampling procedure
of `threshold.rs` encodes a negative dot-product `-x` as `u16::MAX - x + 1`,
i.e. two's complement. -/
def toSigned (c : Nat) : Int :=
  if c < 2 ^ 15 then (c : Int) else (c : Int) - 2 ^ 16

/-- The scale `A = ⌊(1 - 2 * rho) * B⌋` of `threshold.rs`, as a function of
the match-threshold ratio `rho` (the numeric value of the repository's
`MATCH_THRESHOLD_RATIO` constant is outside the embedded sources). -/
def scaleA (rho : ℚ) : Nat :=
  (⌊(1 - 2 * rho) * 2 ^ 16⌋).toNat

/-- The claim that, for some fixed match-threshold ratio `rho ∈ [0, 1)` and
`A = scaleA rho`, the extracted MSB is `1` exactly when the pair is *not* a
match under the plaintext decision `c / m < rho` (dot products read as exact
signed integers), for all `u16` inputs with `m > 0`. -/
def msbMatchesPlainThreshold : Prop :=
  ∃ rho : ℚ, 0 ≤ rho ∧ rho < 1 ∧
    ∀ c m : Nat, c < 2 ^ 16 → 0 < m → m < 2 ^ 16 →
      (real_result_msb_one (scaleA rho) c m = true ↔ ¬((toSigned c : ℚ) < rho * m))

/-! ## `SyncState` and its fixed-size wire encoding (`sync_nccl.rs`)

The Rust type (from `iris-mpc-common`) is
`SyncState { db_len: u64, deleted_request_ids: Vec<String> }`; identifiers
are modelled as byte lists.  `sync_nccl.rs` serializes it with `bincode`
and pads with zeros to the compile-time constant `SERIAL_SIZE`.  The
`bincode` library is external to the repository; its layout for this shape
is modelled per the specification's wire description: a fixed-width
unsigned integer, then a counted sequence of length-prefixed identifier
byte strings, all little-endian `u64` lengths (`size_of::<usize>() = 8`).
-/

/-- One party's sync-time state: committed database length and the deleted
request identifiers (opaque byte strings). -/
structure SyncState where
  db_len : Nat
  deleted_request_ids : List (List Nat)
deriving DecidableEq

/-- `MAX_REQUESTS` from `sync_nccl.rs`. -/
def MAX_REQUESTS : Nat := 256 * 2

/-- `MAX_REQUEST_ID_LEN` from `sync_nccl.rs` (uuidv4 string length). -/
def MAX_REQUEST_ID_LEN : Nat := 36

/-- `SERIAL_SIZE` from `sync_nccl.rs`:
`MAX_REQUESTS * (size_of::<usize>() + MAX_REQUEST_ID_LEN) + 2 * size_of::<usize>()`. -/
def SERIAL_SIZE : Nat := MAX_REQUESTS * (8 + MAX_REQUEST_ID_LEN) + 2 * 8

/-- Length-prefixed encoding of one identifier byte string. -/
def encodeRequestId (s : List Nat) : List Nat :=
  leBytes 8 s.length ++ s

/-- The unpadded wire encoding of a `SyncState`: `db_len`, then the
identifier count, then each identifier length-prefixed. -/
def encodeSyncState (s : SyncState) : List Nat :=
  leBytes 8 s.db_len ++ leBytes 8 s.deleted_request_ids.length ++
    (s.deleted_request_ids.map encodeRequestId).flatten

/-- `serialize` from `sync_nccl.rs`: encode, fail if the encoding exceeds
`SERIAL_SIZE`, otherwise zero-pad to exactly `SERIAL_SIZE` bytes. -/
def serializeSyncState (state : SyncState) : Except String (List Nat) :=
  let state_ser := encodeSyncState state
  if SERIAL_SIZE < state_ser.length then
    Except.error "State too large to serialize"
  else
    Except.ok (state_ser ++ List.replicate (SERIAL_SIZE - state_ser.length) 0)

/-- Read `n` length-prefixed identifier strings from the buffer. -/
def readRequestIds : Nat → List Nat → Option (List (List Nat) × List Nat)
  | 0, l => some ([], l)
  | n + 1, l => do
    let (len, r) ← readLE 8 l
    let (s, r2) ← readN len r
    let (ids, r3) ← readRequestIds n r2
    pure (s :: ids, r3)

/-- Decode a `SyncState` from the front of a buffer, returning the
remaining bytes.  Trailing bytes (the zero padding) are ignored, matching
the behaviour of `bincode::deserialize` that the padding scheme of
`sync_nccl.rs` relies on. -/
def decodeSyncState (l : List Nat) : Option (SyncState × List Nat) := do
  let (db_len, r) ← readLE 8 l
  let (n, r2) ← readLE 8 r
  let (ids, r3) ← readRequestIds n r2
  pure (⟨db_len, ids⟩, r3)

/-- `deserialize` from `sync_nccl.rs`: decode one state from a fixed-size
buffer, reporting a typed decoding failure on malformed input. -/
def deserializeSyncState (state_ser : List Nat) : Except String SyncState :=
  match decodeSyncState state_ser with
  | some (s, _) => Except.ok s
  | none => Except.error "malformed SyncState"

/-- `deserialize_all` from `sync_nccl.rs`: split the concatenated
`all_gather` output into `SERIAL_SIZE`-byte chunks and decode each. -/
def deserialize_all (state_ser : List Nat) : Except String (List SyncState) :=
  (chunksOf SERIAL_SIZE state_ser).mapM deserializeSyncState

/-! ## The sync result and the rollback decision

`sync` in `sync_nccl.rs` all-gathers every party's fixed-size state and
returns `SyncResult::new(own_state, all_states)`; the gathered list
contains one state per party, the caller's own among them. -/

/-- The result of one sync round: the caller's own state plus the states
of all parties as gathered. -/
structure SyncResult where
  own_state : SyncState
  all_states : List SyncState

/-- Modelled from the spec: `SyncResult::must_rollback_storage` (declared
in `iris-mpc-common`, outside the embedded sources).  "If every state's
database length matches the caller's own, the result carries no rollback
target.  If any state disagrees, the rollback target is the minimum
database length observed across all parties (the common safe prefix)";
deleted-identifier sets do not drive rollback. -/
def SyncResult.must_rollback_storage (r : SyncResult) : Option Nat :=
  if r.all_states.all (fun s => s.db_len == r.own_state.db_len) then none
  else some (r.all_states.foldl (fun m s => Nat.min m s.db_len) r.own_state.db_len)

/-! ## Bit packing (`threshold.rs::pack_with_device_padding`)

The reference packs the per-pair plaintext booleans into `u64` words,
device chunk by device chunk: each `devSize`-bit device chunk is split
into 64-bit groups and each group packed little-endian (bit `i` of the
word is element `i`).  `devSize` is `INPUTS_PER_GPU_SIZE` in the test;
it is a parameter here.  The test asserts `bits.len() % devSize == 0`,
under which `chunks_exact` and `chunks` coincide and are both modelled
by `chunksOf`. -/

/-- Pack up to 64 booleans into one word: `r |= bit << i`. -/
def packWord (bits : List Bool) : Nat :=
  bits.enum.foldl (fun r p => r ||| ((if p.2 then 1 else 0) <<< p.1)) 0

/-- `pack_with_device_padding` from `threshold.rs`, with the per-device
size as a parameter. -/
def pack_with_device_padding (devSize : Nat) (bits : List Bool) : List Nat :=
  ((chunksOf devSize bits).map fun device => (chunksOf 64 device).map packWord).flatten

/-- Plain 64-bit-word packing of a whole bit vector, ignoring device
boundaries: the reference point for chunk-size independence. -/
def packPlain64 (bits : List Bool) : List Nat :=
  (chunksOf 64 bits).map packWord

/-- `real_result_msb` from `threshold.rs`: the per-pair MSBs of a batch,
packed with device padding. -/
def real_result_msb (devSize A : Nat) (code_input mask_input : List Nat) : List Nat :=
  pack_with_device_padding devSize
    (List.zipWith (fun c m => real_result_msb_one A c m) code_input mask_input)

/-! ## The open/reveal subprotocol (`threshold.rs::open`)

A party holds, per device, a `ChunkShare` — two equal-length buffers
`(a, b)` of XOR-shares.  `open` sends each device's `b` buffer to the
next party, receives the corresponding buffer `c` from the previous
party (all sends/receives of the round issued as one group), computes
`a ^ b ^ c` elementwise on each device, and concatenates the per-device
results in device order.  The `get_offset` bookkeeping (result bits live
in the first `CHUNK_SIZE` words of the result buffer, the received
shares are staged in the second) is dropped: each device is modelled by
its result view directly, and the received buffers are an explicit
argument standing for the network. -/

/-- A party's pair of share buffers for one device. -/
structure ChunkShare where
  a : List Nat
  b : List Nat

/-- One device's opened words: `a ^ (b ^ c)` elementwise, `c` being the
buffer received from the previous party. -/
def openDevice (x : ChunkShare) (c : List Nat) : List Nat :=
  List.zipWith (fun u v => u ^^^ v) x.a (List.zipWith (fun u v => u ^^^ v) x.b c)

/-- `open` from `threshold.rs`, after the exchange: per-device XOR of the
party's own two buffers with the received one, concatenated in device
order. -/
def openParty (xs : List ChunkShare) (recv : List (List Nat)) : List Nat :=
  (List.zipWith openDevice xs recv).flatten

/-- Replicated-share convention of the test (`rep_share`): with additive
shares `(s0, s1, s2)`, party `p` holds the pair `(s_p, s_(p-1))`.  Per
device, party `p`'s `ChunkShare` over the three share vectors. -/
def partyChunks (p : Nat) (s0 s1 s2 : List (List Nat)) : List ChunkShare :=
  match p with
  | 0 => List.zipWith ChunkShare.mk s0 s2
  | 1 => List.zipWith ChunkShare.mk s1 s0
  | _ => List.zipWith ChunkShare.mk s2 s1

/-- What party `p` receives from its previous party `(p + 2) % 3`: the `b`
buffers that party sends, i.e. the share vector `s_(p+1)`. -/
def recvShares (p : Nat) (s0 s1 s2 : List (List Nat)) : List (List Nat) :=
  match p with
  | 0 => s1
  | 1 => s2
  | _ => s0

/-- Party `p`'s full result of one open round over the three per-device
share vectors. -/
def openResult (p : Nat) (s0 s1 s2 : List (List Nat)) : List Nat :=
  openParty (partyChunks p s0 s1 s2) (recvShares p s0 s1 s2)

/-- Elementwise XOR of two equal-shape nested lists. -/
def zipXor (u v : List (List Nat)) : List (List Nat) :=
  List.zipWith (fun x y => List.zipWith (fun a b => a ^^^ b) x y) u v

/-- The reconstructed plaintext: per device, the elementwise XOR of the
three share vectors, concatenated in device order. -/
def openedBits (s0 s1 s2 : List (List Nat)) : List Nat :=
  (List.zipWith (fun u vw => List.zipWith (fun x y => x ^^^ y) u vw) s0
    (List.zipWith (fun v w => List.zipWith (fun x y => x ^^^ y) v w) s1 s2)).flatten

/-! ## `NetworkValue` and its wire codec (`value.rs`)

The tagged union sent between parties.  `to_network`/`from_network` wrap
the external `bincode` library; the byte layout is modelled, per the
specification, as a deterministic tagged encoding (tag byte, then a
payload whose shape the tag determines; vectors length-prefixed).
`RingElement<T>` payloads carry their `T` value; `Bit` is a boolean. -/

/-- The `NetworkValue` tagged union from
`iris-mpc-cpu/src/next_gen_network/value.rs`. -/
inductive NetworkValue where
  | PrfKey (key : List Nat)
  | Ring16 (v : Nat)
  | Ring32 (v : Nat)
  | RingElementBit (b : Bool)
  | RingElement16 (v : Nat)
  | RingElement32 (v : Nat)
  | RingElement64 (v : Nat)
  | VecRing16 (vs : List Nat)
  | VecRing32 (vs : List Nat)
  | VecRing64 (vs : List Nat)
deriving DecidableEq

/-- Length-prefixed vector payload of `w`-byte ring elements. -/
def encodeVec (w : Nat) (vs : List Nat) : List Nat :=
  leBytes 8 vs.length ++ (vs.map (leBytes w)).flatten

/-- `to_network`: serialize a `NetworkValue` to wire bytes (tag byte, then
the payload the tag determines). -/
def NetworkValue.to_network : NetworkValue → List Nat
  | .PrfKey key => 0 :: key
  | .Ring16 v => 1 :: leBytes 2 v
  | .Ring32 v => 2 :: leBytes 4 v
  | .RingElementBit b => 3 :: [if b then 1 else 0]
  | .RingElement16 v => 4 :: leBytes 2 v
  | .RingElement32 v => 5 :: leBytes 4 v
  | .RingElement64 v => 6 :: leBytes 8 v
  | .VecRing16 vs => 7 :: encodeVec 2 vs
  | .VecRing32 vs => 8 :: encodeVec 4 vs
  | .VecRing64 vs => 9 :: encodeVec 8 vs

/-- Read `n` ring elements of `w` bytes each. -/
def readVec (w : Nat) : Nat → List Nat → Option (List Nat × List Nat)
  | 0, l => some ([], l)
  | n + 1, l => do
    let (v, r) ← readLE w l
    let (vs, r2) ← readVec w n r
    pure (v :: vs, r2)

/-- Decode one `NetworkValue` from the front of a buffer; `none` on a
missing, unknown or short payload. -/
def decodeNetworkValue (l : List Nat) : Option (NetworkValue × List Nat) :=
  match l with
  | [] => none
  | 0 :: r => do
    let (key, rest) ← readN 16 r
    pure (.PrfKey key, rest)
  | 1 :: r => do
    let (v, rest) ← readLE 2 r
    pure (.Ring16 v, rest)
  | 2 :: r => do
    let (v, rest) ← readLE 4 r
    pure (.Ring32 v, rest)
  | 3 :: 0 :: rest => some (.RingElementBit false, rest)
  | 3 :: 1 :: rest => some (.RingElementBit true, rest)
  | 3 :: _ => none
  | 4 :: r => do
    let (v, rest) ← readLE 2 r
    pure (.RingElement16 v, rest)
  | 5 :: r => do
    let (v, rest) ← readLE 4 r
    pure (.RingElement32 v, rest)
  | 6 :: r => do
    let (v, rest) ← readLE 8 r
    pure (.RingElement64 v, rest)
  | 7 :: r => do
    let (n, r2) ← readLE 8 r
    let (vs, rest) ← readVec 2 n r2
    pure (.VecRing16 vs, rest)
  | 8 :: r => do
    let (n, r2) ← readLE 8 r
    let (vs, rest) ← readVec 4 n r2
    pure (.VecRing32 vs, rest)
  | 9 :: r => do
    let (n, r2) ← readLE 8 r
    let (vs, rest) ← readVec 8 n r2
    pure (.VecRing64 vs, rest)
  | _ :: _ => none

/-- `from_network` from `value.rs`: propagate an upstream error (the `?` on
the `eyre::Result` argument), otherwise decode, mapping every decoding
failure to the typed error `"failed to parse value"`. -/
def NetworkValue.from_network (serialized : Except String (List Nat)) :
    Except String NetworkValue :=
  match serialized with
  | .error e => .error e
  | .ok bytes =>
    match decodeNetworkValue bytes with
    | some (v, _) => .ok v
    | none => .error "failed to parse value"

/-- Constructibility of a `NetworkValue` in the Rust data model: `PrfKey`
is 16 bytes, every ring element fits its width. -/
def NetworkValue.constructible : NetworkValue → Bool
  | .PrfKey key => key.length == 16 && key.all (fun b => b < 256)
  | .Ring16 v => v < 2 ^ 16
  | .Ring32 v => v < 2 ^ 32
  | .RingElementBit _ => true
  | .RingElement16 v => v < 2 ^ 16
  | .RingElement32 v => v < 2 ^ 32
  | .RingElement64 v => v < 2 ^ 64
  | .VecRing16 vs => vs.length < 2 ^ 64 && vs.all (fun v => v < 2 ^ 16)
  | .VecRing32 vs => vs.length < 2 ^ 64 && vs.all (fun v => v < 2 ^ 32)
  | .VecRing64 vs => vs.length < 2 ^ 64 && vs.all (fun v => v < 2 ^ 64)

/-! ## Redacting `Debug` output (`iris-mpc-upgrade/src/config.rs`)

Both configuration structs hand-implement `Debug` so that the database
connection URLs are replaced by the literal `"<redacted>"`.  The
formatting of the non-secret fields is modelled by their string value
(socket addresses as strings, numbers via `toString`). -/

/-- The `Eye` enum from `config.rs`. -/
inductive Eye where
  | Left
  | Right
deriving DecidableEq

/-- Debug rendering of `Eye`. -/
def Eye.debugFmt : Eye → String
  | .Left => "Left"
  | .Right => "Right"

/-- `UpgradeServerConfig` from `config.rs`. -/
structure UpgradeServerConfig where
  bind_addr : String
  db_url : String
  party_id : Nat
  threads : Nat
  eye : Eye

/-- The hand-written `Debug` impl for `UpgradeServerConfig`: every field in
declaration order, but `db_url` replaced by the literal `<redacted>`. -/
def UpgradeServerConfig.debugFmt (c : UpgradeServerConfig) : String :=
  "UpgradeServerConfig \x7b bind_addr: " ++ c.bind_addr ++
    ", db_url: \"<redacted>\", party_id: " ++ toString c.party_id ++
    ", threads: " ++ toString c.threads ++
    ", eye: " ++ c.eye.debugFmt ++ " \x7d"

/-- `UpgradeClientConfig` from `config.rs`. -/
structure UpgradeClientConfig where
  server1 : String
  server2 : String
  server3 : String
  db_start : Nat
  db_end : Nat
  party_id : Nat
  eye : Eye
  mock : Bool
  shares_db_url : String
  masks_db_url : String

/-- The hand-written `Debug` impl for `UpgradeClientConfig`: the fields in
the impl's print order, with both database URLs replaced by the literal
`<redacted>`. -/
def UpgradeClientConfig.debugFmt (c : UpgradeClientConfig) : String :=
  "UpgradeClientConfig \x7b server1: " ++ c.server1 ++
    ", server2: " ++ c.server2 ++
    ", server3: " ++ c.server3 ++
    ", shares_db_url: \"<redacted>\", masks_db_url: \"<redacted>\", db_start: " ++
    toString c.db_start ++
    ", db_end: " ++ toString c.db_end ++
    ", party_id: " ++ toString c.party_id ++
    ", eye: " ++ c.eye.debugFmt ++
    ", mock: " ++ (if c.mock then "true" else "false") ++ " \x7d"

/-! # Theorems -/

/-! ## C3: sharing round-trip -/

/-- C3: for every `u16` value `v` and every pair of in-procedure random
draws `(a, b)`, the three additive shares `a`, `b`, `c = v - a - b` that
`rep_share` derives satisfy `a + b + c ≡ v (mod 2^16)`: summing the three
distinct first shares held across the parties — starting from any party
`id ∈ {0, 1, 2}` and walking the ring — reconstructs `v` exactly. -/
theorem rep_share_reconstructs (v a b : Nat) (hv : v < 2 ^ 16)
    (_ha : a < 2 ^ 16) (_hb : b < 2 ^ 16) (id : Nat) (hid : id < 3) :
    ((rep_share v a b id).1 + (rep_share v a b ((id + 1) % 3)).1 +
      (rep_share v a b ((id + 2) % 3)).1) % 2 ^ 16 = v := by
  interval_cases id <;>
    simp only [rep_share, thirdShare] <;> omega

/-- Witness for C3 at `v = 12345`, `a = 54321`, `b = 999`, `id = 2`. -/
theorem rep_share_reconstructs_witness :
    ((rep_share 12345 54321 999 2).1 + (rep_share 12345 54321 999 ((2 + 1) % 3)).1 +
      (rep_share 12345 54321 999 ((2 + 2) % 3)).1) % 2 ^ 16 = 12345 :=
  rep_share_reconstructs 12345 54321 999 (by decide) (by decide) (by decide) 2 (by decide)

/-! ## C1: the masked-threshold MSB formula

What the MSB of `r = (m·A - (c << 16)) mod 2^32` actually decides is the
*scaled* integer comparison `c · 2^16 > m · A` (with `c` read as a signed
16-bit dot product), whenever that difference stays inside the signed
32-bit window.  It does *not* coincide, for any fixed threshold ratio
`rho ≥ 0`, with the negation of the plaintext decision `c / m < rho`:
at `c = 32768` (signed value `-32768`) and `m = 1` the pair is a match
under `c / m < rho` for every `rho ≥ 0`, yet the extracted MSB is `1`. -/

/-- Helper: at the `u16` pattern `c = 32768` (signed `-32768`) and `m = 1`
the extracted MSB is `1` for every scale `A ≤ 2^16`. -/
theorem msb_at_neg_extreme (A : Nat) (hA : A ≤ 2 ^ 16) :
    real_result_msb_one A 32768 1 = true := by
  simp only [real_result_msb_one, B_BITS, beq_iff_eq,
    Nat.shiftRight_eq_div_pow, Nat.and_one_is_mod]
  omega

/-- C1 (counterexample): the claim as stated — for some fixed ratio
`rho ∈ [0, 1)`, the MSB equals the negation of the plaintext decision
`c / m < rho` for all `u16` pairs with `m > 0` — is false, refuted at the
concrete input `c = 32768`, `m = 1`. -/
theorem msbMatchesPlainThreshold_false : ¬ msbMatchesPlainThreshold := by
  rintro ⟨rho, h0, _h1, hall⟩
  have hA : scaleA rho ≤ 2 ^ 16 := by
    have hle : ((1 : ℚ) - 2 * rho) * 2 ^ 16 ≤ ((2 : ℚ) ^ 16) := by nlinarith
    have hfl : ⌊((1 : ℚ) - 2 * rho) * 2 ^ 16⌋ ≤ (2 ^ 16 : Int) := by
      calc ⌊((1 : ℚ) - 2 * rho) * 2 ^ 16⌋ ≤ ⌊((2 : ℚ) ^ 16)⌋ := Int.floor_le_floor hle
        _ = 2 ^ 16 := by norm_num
    simpa [scaleA] using Int.toNat_le.mpr hfl
  have hmsb : real_result_msb_one (scaleA rho) 32768 1 = true := msb_at_neg_extreme _ hA
  have hnot := (hall 32768 1 (by norm_num) (by norm_num) (by norm_num)).mp hmsb
  apply hnot
  have hts : (toSigned 32768 : ℚ) = -32768 := by norm_num [toSigned]
  rw [hts]
  nlinarith

/-- C1 (amended): with `c` read as a signed 16-bit dot product, whenever
the exact difference `m·A - c·2^16` lies in the signed 32-bit window
`[-2^31, 2^31)`, the extracted MSB is `1` exactly when `c·2^16 > m·A` —
the linear comparison of `c` against the scaled threshold of `m` (ratio
`A / 2^16 ≈ 1 - 2·rho`, not `rho`). -/
theorem real_result_msb_one_eq_scaled_compare (A c m : Nat)
    (hc : c < 2 ^ 16) (hm : m < 2 ^ 16) (hA : A ≤ 2 ^ 16)
    (hlo : -(2 ^ 31 : Int) ≤ (m : Int) * A - toSigned c * 2 ^ 16)
    (hhi : (m : Int) * A - toSigned c * 2 ^ 16 < 2 ^ 31) :
    (real_result_msb_one A c m = true ↔ (m : Int) * A < toSigned c * 2 ^ 16) := by
  have hprod : m * A ≤ 2 ^ 16 * 2 ^ 16 := Nat.mul_le_mul (Nat.le_of_lt hm) hA
  simp only [real_result_msb_one, B_BITS, beq_iff_eq,
    Nat.shiftRight_eq_div_pow, Nat.and_one_is_mod]
  unfold toSigned at hlo hhi ⊢
  split at hlo <;> [skip; skip] <;>
    · generalize hmA : m * A = t at *
      omega

/-- Witness for the amended C1 at `A = 16384`, `c = 5000`, `m = 6000`:
`m·A = 98304000 < c·2^16 = 327680000`, and the extracted MSB is `1`. -/
theorem real_result_msb_one_eq_scaled_compare_witness :
    real_result_msb_one 16384 5000 6000 = true :=
  (real_result_msb_one_eq_scaled_compare 16384 5000 6000 (by decide) (by decide)
    (by decide) (by decide) (by decide)).mpr (by decide)

/-! ## C2: rollback decision of the sync protocol -/

/-- C2: for a sync round in which the three parties contribute states
`s0, s1, s2` gathered next to the caller's own state, the result carries
no rollback target exactly when every gathered state's database length
equals the caller's own; and on any disagreement the rollback target is
exactly the minimum database length observed across the reporting
parties. -/
theorem must_rollback_storage_spec (own s0 s1 s2 : SyncState) :
    (SyncResult.must_rollback_storage ⟨own, [s0, s1, s2]⟩ = none ↔
      s0.db_len = own.db_len ∧ s1.db_len = own.db_len ∧ s2.db_len = own.db_len) ∧
    (¬(s0.db_len = own.db_len ∧ s1.db_len = own.db_len ∧ s2.db_len = own.db_len) →
      SyncResult.must_rollback_storage ⟨own, [s0, s1, s2]⟩ =
        some (Nat.min (Nat.min (Nat.min own.db_len s0.db_len) s1.db_len) s2.db_len)) := by
  simp only [SyncResult.must_rollback_storage, List.all_cons, List.all_nil,
    List.foldl_cons, List.foldl_nil, Bool.and_true, Bool.and_eq_true, beq_iff_eq]
  constructor
  · split <;> simp_all
  · intro h
    split <;> simp_all

/-- Witness for C2: database lengths `{123, 123, 12}` yield the rollback
target `12`, and three states of equal length `123` yield none. -/
theorem must_rollback_storage_spec_witness :
    SyncResult.must_rollback_storage
      ⟨⟨123, []⟩, [⟨123, []⟩, ⟨123, []⟩, ⟨12, []⟩]⟩ = some 12 := by
  have h := (must_rollback_storage_spec ⟨123, []⟩ ⟨123, []⟩ ⟨123, []⟩ ⟨12, []⟩).2
    (by decide)
  simpa using h

/-! ## C4: the open/reveal subprotocol -/

/-- Pointwise `zipWith` of a left-commutative operation is
left-commutative. -/
theorem zipWith_left_comm (f : α → α → α) (hf : ∀ a b c, f a (f b c) = f b (f a c)) :
    ∀ x y z : List α,
      List.zipWith f x (List.zipWith f y z) = List.zipWith f y (List.zipWith f x z)
  | [], _, _ => by simp
  | _ :: _, [], _ => by simp
  | _ :: _, _ :: _, [] => by simp
  | a :: x, b :: y, c :: z => by
    simp only [List.zipWith_cons_cons]
    exact congrArg₂ List.cons (hf a b c) (zipWith_left_comm f hf x y z)

/-- `openedBits` is the flattening of the nested three-way XOR. -/
theorem openedBits_eq_zipXor (s0 s1 s2 : List (List Nat)) :
    openedBits s0 s1 s2 = (zipXor s0 (zipXor s1 s2)).flatten := rfl

/-- Inner XOR on share buffers commutes. -/
theorem zipXor_comm (u v : List (List Nat)) : zipXor u v = zipXor v u :=
  List.zipWith_comm_of_comm _
    (fun x y => List.zipWith_comm_of_comm _ Nat.xor_comm x y) u v

/-- XOR on share buffers is left-commutative. -/
theorem zipXor_left_comm (u v w : List (List Nat)) :
    zipXor u (zipXor v w) = zipXor v (zipXor u w) :=
  zipWith_left_comm _
    (fun x y z => zipWith_left_comm _
      (fun a b c => by
        rw [← Nat.xor_assoc, Nat.xor_comm a b, Nat.xor_assoc]) x y z) u v w

/-- Unfolding `openParty` over per-device share pairs: the party's output
is the flattened three-way XOR of its two held vectors with the received
one. -/
theorem openParty_zip : ∀ u v w : List (List Nat),
    openParty (List.zipWith ChunkShare.mk u v) w = (zipXor u (zipXor v w)).flatten
  | [], _, _ => rfl
  | _ :: _, [], _ => rfl
  | _ :: _, _ :: _, [] => rfl
  | a :: u, b :: v, c :: w => by
    have ih := openParty_zip u v w
    simp only [openParty, zipXor, openDevice, List.zipWith_cons_cons,
      List.flatten_cons] at ih ⊢
    rw [ih]

/-- Length of the reconstructed batch under uniform shapes. -/
theorem openedBits_length : ∀ (s0 s1 s2 : List (List Nat)) (k : Nat),
    s1.length = s0.length → s2.length = s0.length →
    (∀ l ∈ s0, l.length = k) → (∀ l ∈ s1, l.length = k) → (∀ l ∈ s2, l.length = k) →
    (openedBits s0 s1 s2).length = s0.length * k
  | [], _, _, _, _, _, _, _, _ => by simp [openedBits, zipXor]
  | a :: s0, b :: s1, c :: s2, k, h1, h2, g0, g1, g2 => by
    rw [List.forall_mem_cons] at g0 g1 g2
    have ih := openedBits_length s0 s1 s2 k
      (by simp at h1; omega) (by simp at h2; omega) g0.2 g1.2 g2.2
    have ha : (List.zipWith (fun x y => x ^^^ y) a
        (List.zipWith (fun x y => x ^^^ y) b c)).length = k := by
      simp [List.length_zipWith, g0.1, g1.1, g2.1]
    simp only [openedBits, zipXor, List.zipWith_cons_cons, List.flatten_cons,
      List.length_append, List.length_cons]
    rw [ha]
    simp only [openedBits, zipXor] at ih
    rw [ih, Nat.succ_mul, Nat.add_comm]
  | _ :: _, [], _, _, h1, _, _, _, _ => by simp at h1
  | _ :: _, _ :: _, [], _, _, h2, _, _, _ => by simp at h2

/-- C4: in one open round, each party sends one of its two held share
buffers (its `b` view) to the next neighbor and receives the matching
buffer from its previous neighbor; its output is, per device, the
elementwise XOR of its own two buffers with the received one, the
per-device vectors concatenated in device order, every party obtaining
the same reconstructed bits; with `d` devices of `k` elements each the
result length is `d * k`, the number of compared pairs. -/
theorem open_reveal_spec (p : Nat) (hp : p < 3) (s0 s1 s2 : List (List Nat)) (k : Nat)
    (h1 : s1.length = s0.length) (h2 : s2.length = s0.length)
    (g0 : ∀ l ∈ s0, l.length = k) (g1 : ∀ l ∈ s1, l.length = k)
    (g2 : ∀ l ∈ s2, l.length = k) :
    openResult p s0 s1 s2 = openedBits s0 s1 s2 ∧
      (openResult p s0 s1 s2).length = s0.length * k := by
  have hmain : openResult p s0 s1 s2 = openedBits s0 s1 s2 := by
    interval_cases p
    · rw [openResult, openedBits_eq_zipXor]
      show openParty (List.zipWith ChunkShare.mk s0 s2) s1 = _
      rw [openParty_zip, zipXor_comm s2 s1]
    · rw [openResult, openedBits_eq_zipXor]
      show openParty (List.zipWith ChunkShare.mk s1 s0) s2 = _
      rw [openParty_zip, zipXor_left_comm s1 s0 s2]
    · rw [openResult, openedBits_eq_zipXor]
      show openParty (List.zipWith ChunkShare.mk s2 s1) s0 = _
      rw [openParty_zip, zipXor_left_comm s2 s1 s0, zipXor_comm s2 s0,
        zipXor_left_comm s1 s0 s2]
  refine ⟨hmain, ?_⟩
  rw [hmain, openedBits_length s0 s1 s2 k h1 h2 g0 g1 g2]

/-- Witness for C4 with two devices of two elements, party `1`. -/
theorem open_reveal_spec_witness :
    openResult 1 [[1, 2], [3, 4]] [[5, 6], [7, 8]] [[9, 10], [11, 12]] =
      openedBits [[1, 2], [3, 4]] [[5, 6], [7, 8]] [[9, 10], [11, 12]] ∧
    (openResult 1 [[1, 2], [3, 4]] [[5, 6], [7, 8]] [[9, 10], [11, 12]]).length = 2 * 2 := by
  have h := open_reveal_spec 1 (by decide)
    [[1, 2], [3, 4]] [[5, 6], [7, 8]] [[9, 10], [11, 12]] 2
    (by decide) (by decide) (by decide) (by decide) (by decide)
  simpa using h

/-! ## C9: chunk-size independence of the reference packing -/

/-- `chunksOfGo` of the empty list is empty at any fuel. -/
theorem chunksOfGo_nil (n fuel : Nat) : chunksOfGo n fuel ([] : List α) = [] := by
  cases fuel <;> rfl

/-- `chunksOf` of the empty list is empty. -/
theorem chunksOf_nil (n : Nat) : chunksOf n ([] : List α) = [] := by
  unfold chunksOf
  split <;> rfl

/-- The fuel of `chunksOfGo` is irrelevant as long as it covers the list
length. -/
theorem chunksOfGo_fuel (n : Nat) (hn : 0 < n) :
    ∀ fuel fuel' (l : List α), l.length ≤ fuel → l.length ≤ fuel' →
      chunksOfGo n fuel l = chunksOfGo n fuel' l := by
  intro fuel
  induction fuel with
  | zero =>
    intro fuel' l h _
    have hl : l = [] := List.eq_nil_of_length_eq_zero (Nat.le_zero.mp h)
    subst hl
    rw [chunksOfGo_nil, chunksOfGo_nil]
  | succ f ih =>
    intro fuel' l h h'
    cases l with
    | nil => rw [chunksOfGo_nil, chunksOfGo_nil]
    | cons a t =>
      cases fuel' with
      | zero => simp at h'
      | succ f' =>
        simp only [chunksOfGo]
        congr 1
        apply ih
        · simp only [List.length_drop, List.length_cons] at h ⊢
          omega
        · simp only [List.length_drop, List.length_cons] at h' ⊢
          omega

/-- Peeling one exact chunk off the front of a concatenation. -/
theorem chunksOf_append (n : Nat) (hn : 0 < n) (xs ys : List α)
    (hx : xs.length = n) :
    chunksOf n (xs ++ ys) = xs :: chunksOf n ys := by
  obtain ⟨a, t, rfl⟩ : ∃ a t, xs = a :: t := by
    cases xs with
    | nil => simp at hx; omega
    | cons a t => exact ⟨a, t, rfl⟩
  unfold chunksOf
  rw [if_neg (by omega), if_neg (by omega)]
  have h1 : (a :: t) ++ ys = a :: (t ++ ys) := rfl
  have h2 : (a :: (t ++ ys)).length = (t ++ ys).length + 1 := rfl
  rw [h1, h2]
  show (a :: (t ++ ys)).take n :: chunksOfGo n (t ++ ys).length ((a :: (t ++ ys)).drop n)
      = (a :: t) :: chunksOfGo n ys.length ys
  rw [← h1, List.take_left' hx, List.drop_left' hx]
  congr 1
  apply chunksOfGo_fuel n hn
  · simp
  · exact Nat.le_refl _

/-- `chunksOf` distributes over a concatenation whose first part is an
exact multiple of the chunk size. -/
theorem chunksOf_flat_aux (n : Nat) (hn : 0 < n) :
    ∀ (d : Nat) (xs ys : List α), xs.length = n * d →
      chunksOf n (xs ++ ys) = chunksOf n xs ++ chunksOf n ys := by
  intro d
  induction d with
  | zero =>
    intro xs ys h
    have hx : xs = [] := List.eq_nil_of_length_eq_zero (by omega)
    subst hx
    simp [chunksOf_nil]
  | succ d ih =>
    intro xs ys h
    rw [Nat.mul_succ] at h
    set q := n * d with hq
    have hlen : (xs.take n).length = n := by
      rw [List.length_take]; omega
    have hdrop : (xs.drop n).length = n * d := by
      rw [List.length_drop, ← hq]; omega
    conv_lhs => rw [← List.take_append_drop n xs]
    conv_rhs => rw [← List.take_append_drop n xs]
    rw [List.append_assoc, chunksOf_append n hn _ _ hlen,
      chunksOf_append n hn _ _ hlen, ih (xs.drop n) ys hdrop]
    rfl

/-- `chunksOf` distributes over a concatenation whose first part's length
the chunk size divides. -/
theorem chunksOf_append_of_dvd (n : Nat) (hn : 0 < n) (xs ys : List α)
    (hd : n ∣ xs.length) :
    chunksOf n (xs ++ ys) = chunksOf n xs ++ chunksOf n ys := by
  obtain ⟨d, hdlen⟩ := hd
  exact chunksOf_flat_aux n hn d xs ys hdlen

/-- C9: per-device packing of the plaintext bits is independent of the
device chunk boundaries: whenever the per-device size is a positive
multiple of 64 that evenly divides the batch, `pack_with_device_padding`
equals plain 64-bit-word packing of the whole bit vector — so any two
device partitions (1 vs. N chunks) of the identical batch produce the
identical packed match-bit vector. -/
theorem pack_with_device_padding_eq_plain (devSize : Nat) (bits : List Bool)
    (hpos : 0 < devSize) (h64 : 64 ∣ devSize) (hdvd : devSize ∣ bits.length) :
    pack_with_device_padding devSize bits = packPlain64 bits := by
  obtain ⟨d, hd⟩ := hdvd
  suffices h : ∀ (d : Nat) (bs : List Bool), bs.length = devSize * d →
      pack_with_device_padding devSize bs = packPlain64 bs from h d bits hd
  intro d
  induction d with
  | zero =>
    intro bs h
    have hb : bs = [] := List.eq_nil_of_length_eq_zero (by omega)
    subst hb
    simp [pack_with_device_padding, packPlain64, chunksOf_nil]
  | succ d ih =>
    intro bs h
    rw [Nat.mul_succ] at h
    set q := devSize * d with hq
    have hlen : (bs.take devSize).length = devSize := by
      rw [List.length_take]; omega
    have hdrop : (bs.drop devSize).length = devSize * d := by
      rw [List.length_drop, ← hq]; omega
    have h64t : (64 : Nat) ∣ (bs.take devSize).length := by
      rw [hlen]; exact h64
    conv_lhs => rw [← List.take_append_drop devSize bs]
    conv_rhs => rw [← List.take_append_drop devSize bs]
    unfold pack_with_device_padding packPlain64
    rw [chunksOf_append devSize hpos _ _ hlen,
      chunksOf_append_of_dvd 64 (by omega) _ _ h64t]
    simp only [List.map_cons, List.flatten_cons, List.map_append]
    congr 1
    have ihd := ih (bs.drop devSize) hdrop
    simpa [pack_with_device_padding, packPlain64] using ihd

set_option maxRecDepth 2000 in
/-- Witness for C9: a 128-bit batch split into two 64-bit devices packs
identically to plain whole-vector packing. -/
theorem pack_with_device_padding_eq_plain_witness :
    pack_with_device_padding 64 (List.replicate 128 true) =
      packPlain64 (List.replicate 128 true) :=
  pack_with_device_padding_eq_plain 64 (List.replicate 128 true)
    (by decide) (by decide) (by decide)

/-! ## C7 and C8: the fixed-size `SyncState` wire form -/

/-- A `w`-byte little-endian encoding has length `w`. -/
theorem leBytes_length : ∀ (w k : Nat), (leBytes w k).length = w
  | 0, _ => rfl
  | w + 1, k => by simp [leBytes, leBytes_length w (k / 256)]

/-- Length of one encoded identifier. -/
theorem encodeRequestId_length (s : List Nat) :
    (encodeRequestId s).length = 8 + s.length := by
  simp [encodeRequestId, leBytes_length]

/-- Length bound for the encoded identifier block. -/
theorem encoded_ids_length_le : ∀ ids : List (List Nat),
    (∀ rid ∈ ids, rid.length ≤ MAX_REQUEST_ID_LEN) →
    ((ids.map encodeRequestId).flatten).length ≤ ids.length * (8 + MAX_REQUEST_ID_LEN) := by
  intro ids
  induction ids with
  | nil => simp
  | cons a t ih =>
    intro h
    rw [List.forall_mem_cons] at h
    have hb := ih h.2
    simp only [List.map_cons, List.flatten_cons, List.length_append,
      encodeRequestId_length, List.length_cons, Nat.succ_mul]
    have ha := h.1
    simp only [MAX_REQUEST_ID_LEN] at *
    omega

/-- Within the request-count and identifier-length limits the unpadded
encoding never exceeds `SERIAL_SIZE`. -/
theorem encodeSyncState_length_le (s : SyncState)
    (hn : s.deleted_request_ids.length ≤ MAX_REQUESTS)
    (hl : ∀ rid ∈ s.deleted_request_ids, rid.length ≤ MAX_REQUEST_ID_LEN) :
    (encodeSyncState s).length ≤ SERIAL_SIZE := by
  have hids := encoded_ids_length_le s.deleted_request_ids hl
  have hmul : s.deleted_request_ids.length * (8 + MAX_REQUEST_ID_LEN) ≤
      MAX_REQUESTS * (8 + MAX_REQUEST_ID_LEN) :=
    Nat.mul_le_mul_right _ hn
  simp only [encodeSyncState, List.length_append, leBytes_length,
    SERIAL_SIZE, MAX_REQUESTS, MAX_REQUEST_ID_LEN] at *
  omega

/-- Within the limits, `serialize` succeeds and returns the zero-padded
fixed-size buffer. -/
theorem serializeSyncState_ok (s : SyncState)
    (hn : s.deleted_request_ids.length ≤ MAX_REQUESTS)
    (hl : ∀ rid ∈ s.deleted_request_ids, rid.length ≤ MAX_REQUEST_ID_LEN) :
    serializeSyncState s = Except.ok (encodeSyncState s ++
      List.replicate (SERIAL_SIZE - (encodeSyncState s).length) 0) := by
  have hle := encodeSyncState_length_le s hn hl
  unfold serializeSyncState
  rw [if_neg (by omega)]

/-- C7: for every state within the request-count and identifier-length
limits, `serialize` returns `Ok` with a buffer of exactly `SERIAL_SIZE`
bytes, the content-independent compile-time constant; a state whose
encoding exceeds `SERIAL_SIZE` yields an error instead. -/
theorem serializeSyncState_fixed_size (s : SyncState)
    (hn : s.deleted_request_ids.length ≤ MAX_REQUESTS)
    (hl : ∀ rid ∈ s.deleted_request_ids, rid.length ≤ MAX_REQUEST_ID_LEN) :
    (∃ buf, serializeSyncState s = Except.ok buf ∧ buf.length = SERIAL_SIZE) ∧
    (∀ t : SyncState, SERIAL_SIZE < (encodeSyncState t).length →
      serializeSyncState t = Except.error "State too large to serialize") := by
  constructor
  · refine ⟨_, serializeSyncState_ok s hn hl, ?_⟩
    have hle := encodeSyncState_length_le s hn hl
    simp only [List.length_append, List.length_replicate]
    omega
  · intro t ht
    unfold serializeSyncState
    rw [if_pos (by omega)]

/-- Witness for C7: a small state with two short identifiers. -/
theorem serializeSyncState_fixed_size_witness :
    ∃ buf, serializeSyncState ⟨123, [[65, 66], [67]]⟩ = Except.ok buf ∧
      buf.length = SERIAL_SIZE :=
  (serializeSyncState_fixed_size ⟨123, [[65, 66], [67]]⟩ (by decide)
    (by decide)).1

/-- Reading back a little-endian encoding recovers the value and leaves
the trailing bytes untouched. -/
theorem readLE_leBytes : ∀ (w k : Nat) (rest : List Nat), k < 256 ^ w →
    readLE w (leBytes w k ++ rest) = some (k, rest) := by
  intro w
  induction w with
  | zero =>
    intro k rest h
    simp only [Nat.pow_zero, Nat.lt_one_iff] at h
    subst h
    rfl
  | succ w ih =>
    intro k rest h
    have hdiv : k / 256 < 256 ^ w := by
      rw [Nat.div_lt_iff_lt_mul (by omega)]
      calc k < 256 ^ (w + 1) := h
        _ = 256 ^ w * 256 := by rw [Nat.pow_succ]
    simp only [leBytes, readLE, List.cons_append, List.append_eq]
    rw [ih (k / 256) rest hdiv]
    simp only [Option.some.injEq, Prod.mk.injEq]
    exact ⟨by omega, trivial⟩

/-- Reading exactly the prefix bytes back. -/
theorem readN_exact (s rest : List Nat) :
    readN s.length (s ++ rest) = some (s, rest) := by
  unfold readN
  rw [if_pos (by simp), List.take_left, List.drop_left]

/-- Reading back a block of encoded identifiers. -/
theorem readRequestIds_roundtrip : ∀ (ids : List (List Nat)) (rest : List Nat),
    (∀ rid ∈ ids, rid.length < 256 ^ 8) →
    readRequestIds ids.length ((ids.map encodeRequestId).flatten ++ rest) =
      some (ids, rest) := by
  intro ids
  induction ids with
  | nil => intro rest _; rfl
  | cons a t ih =>
    intro rest h
    rw [List.forall_mem_cons] at h
    have h1 : readLE 8 (leBytes 8 a.length ++
        (a ++ ((t.map encodeRequestId).flatten ++ rest))) =
        some (a.length, a ++ ((t.map encodeRequestId).flatten ++ rest)) :=
      readLE_leBytes 8 a.length _ h.1
    have h2 : readN a.length (a ++ ((t.map encodeRequestId).flatten ++ rest)) =
        some (a, (t.map encodeRequestId).flatten ++ rest) :=
      readN_exact a _
    have h3 := ih rest h.2
    simp only [List.map_cons, List.flatten_cons, List.length_cons,
      encodeRequestId, List.append_assoc]
    simp only [List.append_assoc] at h1 h2 h3
    simp [readRequestIds, h1, h2, h3]

/-- Decoding the front of a buffer that starts with an encoded in-bounds
`SyncState` recovers the state and ignores whatever follows. -/
theorem decodeSyncState_front (s : SyncState) (rest : List Nat)
    (hdb : s.db_len < 2 ^ 64)
    (hn : s.deleted_request_ids.length ≤ MAX_REQUESTS)
    (hl : ∀ rid ∈ s.deleted_request_ids, rid.length ≤ MAX_REQUEST_ID_LEN) :
    decodeSyncState (encodeSyncState s ++ rest) = some (s, rest) := by
  have h1 : readLE 8 (leBytes 8 s.db_len ++
      (leBytes 8 s.deleted_request_ids.length ++
        ((s.deleted_request_ids.map encodeRequestId).flatten ++ rest))) =
      some (s.db_len, leBytes 8 s.deleted_request_ids.length ++
        ((s.deleted_request_ids.map encodeRequestId).flatten ++ rest)) :=
    readLE_leBytes 8 s.db_len _ (by norm_num at hdb ⊢; omega)
  have h2 : readLE 8 (leBytes 8 s.deleted_request_ids.length ++
      ((s.deleted_request_ids.map encodeRequestId).flatten ++ rest)) =
      some (s.deleted_request_ids.length,
        (s.deleted_request_ids.map encodeRequestId).flatten ++ rest) := by
    apply readLE_leBytes
    have : MAX_REQUESTS < 256 ^ 8 := by norm_num [MAX_REQUESTS]
    omega
  have h3 : readRequestIds s.deleted_request_ids.length
      ((s.deleted_request_ids.map encodeRequestId).flatten ++ rest) =
      some (s.deleted_request_ids, rest) := by
    apply readRequestIds_roundtrip
    intro rid hrid
    have := hl rid hrid
    have : MAX_REQUEST_ID_LEN < 256 ^ 8 := by norm_num [MAX_REQUEST_ID_LEN]
    omega
  simp only [encodeSyncState, List.append_assoc]
  simp only [List.append_assoc] at h1 h2 h3
  simp [decodeSyncState, h1, h2, h3]

/-- Deserializing a zero-padded serialization recovers the state. -/
theorem deserializeSyncState_roundtrip (s : SyncState)
    (hdb : s.db_len < 2 ^ 64)
    (hn : s.deleted_request_ids.length ≤ MAX_REQUESTS)
    (hl : ∀ rid ∈ s.deleted_request_ids, rid.length ≤ MAX_REQUEST_ID_LEN) :
    deserializeSyncState (encodeSyncState s ++
      List.replicate (SERIAL_SIZE - (encodeSyncState s).length) 0) =
      Except.ok s := by
  unfold deserializeSyncState
  rw [decodeSyncState_front s _ hdb hn hl]

/-- C8: concatenating the fixed-size serializations of any in-bounds list
of states and deserializing the concatenation by `SERIAL_SIZE`-byte
chunks yields exactly the original list, with no length prefix. -/
theorem deserialize_all_roundtrip (states : List SyncState)
    (hb : ∀ s ∈ states, s.db_len < 2 ^ 64 ∧
      s.deleted_request_ids.length ≤ MAX_REQUESTS ∧
      ∀ rid ∈ s.deleted_request_ids, rid.length ≤ MAX_REQUEST_ID_LEN) :
    ∃ bufs : List (List Nat),
      states.mapM serializeSyncState = Except.ok bufs ∧
      deserialize_all bufs.flatten = Except.ok states := by
  induction states with
  | nil => exact ⟨[], rfl, rfl⟩
  | cons s t ih =>
    rw [List.forall_mem_cons] at hb
    obtain ⟨bufs, hmap, hdes⟩ := ih hb.2
    obtain ⟨hdb, hn, hl⟩ := hb.1
    have hser := serializeSyncState_ok s hn hl
    refine ⟨(encodeSyncState s ++
      List.replicate (SERIAL_SIZE - (encodeSyncState s).length) 0) :: bufs, ?_, ?_⟩
    · rw [List.mapM_cons, hser, hmap]
      rfl
    · have hlen : (encodeSyncState s ++
          List.replicate (SERIAL_SIZE - (encodeSyncState s).length) 0).length =
          SERIAL_SIZE := by
        have hle := encodeSyncState_length_le s hn hl
        simp only [List.length_append, List.length_replicate]
        omega
      have hpos : 0 < SERIAL_SIZE := by norm_num [SERIAL_SIZE, MAX_REQUESTS, MAX_REQUEST_ID_LEN]
      unfold deserialize_all
      rw [List.flatten_cons, chunksOf_append SERIAL_SIZE hpos _ _ hlen,
        List.mapM_cons, deserializeSyncState_roundtrip s hdb hn hl]
      unfold deserialize_all at hdes
      rw [hdes]
      rfl

/-- Witness for C8 with two small states. -/
theorem deserialize_all_roundtrip_witness :
    ∃ bufs : List (List Nat),
      [(⟨123, [[65]]⟩ : SyncState), ⟨7, []⟩].mapM serializeSyncState = Except.ok bufs ∧
      deserialize_all bufs.flatten = Except.ok [⟨123, [[65]]⟩, ⟨7, []⟩] :=
  deserialize_all_roundtrip [⟨123, [[65]]⟩, ⟨7, []⟩] (by decide)

/-! ## C5 and C6: the `NetworkValue` wire codec -/

/-- Reading back an encoded vector of ring elements. -/
theorem readVec_roundtrip (w : Nat) : ∀ (vs rest : List Nat),
    (∀ v ∈ vs, v < 256 ^ w) →
    readVec w vs.length ((vs.map (leBytes w)).flatten ++ rest) = some (vs, rest) := by
  intro vs
  induction vs with
  | nil => intro rest _; rfl
  | cons v t ih =>
    intro rest h
    rw [List.forall_mem_cons] at h
    have h1 := readLE_leBytes w v ((t.map (leBytes w)).flatten ++ rest) h.1
    have h3 := ih rest h.2
    simp only [List.map_cons, List.flatten_cons, List.length_cons, List.append_assoc]
    simp only [List.append_assoc] at h1
    simp [readVec, h1, h3]

/-- C5: for every constructible `NetworkValue` — vector variants at any
length included — deserializing the serialization returns the original
value: `from_network (ok (to_network x)) = ok x`. -/
theorem from_network_to_network (x : NetworkValue)
    (h : x.constructible = true) :
    NetworkValue.from_network (Except.ok x.to_network) = Except.ok x := by
  cases x with
  | PrfKey key =>
    simp only [NetworkValue.constructible, Bool.and_eq_true, beq_iff_eq,
      List.all_eq_true, decide_eq_true_eq] at h
    have hr : readN 16 (key ++ []) = some (key, []) := by
      rw [← h.1]; exact readN_exact key []
    rw [List.append_nil] at hr
    simp [NetworkValue.from_network, NetworkValue.to_network, decodeNetworkValue, hr]
  | Ring16 v =>
    simp only [NetworkValue.constructible, decide_eq_true_eq] at h
    have hr := readLE_leBytes 2 v [] (by norm_num at h ⊢; omega)
    rw [List.append_nil] at hr
    simp [NetworkValue.from_network, NetworkValue.to_network, decodeNetworkValue, hr]
  | Ring32 v =>
    simp only [NetworkValue.constructible, decide_eq_true_eq] at h
    have hr := readLE_leBytes 4 v [] (by norm_num at h ⊢; omega)
    rw [List.append_nil] at hr
    simp [NetworkValue.from_network, NetworkValue.to_network, decodeNetworkValue, hr]
  | RingElementBit b => cases b <;> rfl
  | RingElement16 v =>
    simp only [NetworkValue.constructible, decide_eq_true_eq] at h
    have hr := readLE_leBytes 2 v [] (by norm_num at h ⊢; omega)
    rw [List.append_nil] at hr
    simp [NetworkValue.from_network, NetworkValue.to_network, decodeNetworkValue, hr]
  | RingElement32 v =>
    simp only [NetworkValue.constructible, decide_eq_true_eq] at h
    have hr := readLE_leBytes 4 v [] (by norm_num at h ⊢; omega)
    rw [List.append_nil] at hr
    simp [NetworkValue.from_network, NetworkValue.to_network, decodeNetworkValue, hr]
  | RingElement64 v =>
    simp only [NetworkValue.constructible, decide_eq_true_eq] at h
    have hr := readLE_leBytes 8 v [] (by norm_num at h ⊢; omega)
    rw [List.append_nil] at hr
    simp [NetworkValue.from_network, NetworkValue.to_network, decodeNetworkValue, hr]
  | VecRing16 vs =>
    simp only [NetworkValue.constructible, Bool.and_eq_true, decide_eq_true_eq,
      List.all_eq_true] at h
    have hlen := readLE_leBytes 8 vs.length ((vs.map (leBytes 2)).flatten)
      (by have := h.1; norm_num at this ⊢; omega)
    have hvec := readVec_roundtrip 2 vs []
      (fun v hv => by have := h.2 v hv; norm_num at this ⊢; omega)
    rw [List.append_nil] at hvec
    simp [NetworkValue.from_network, NetworkValue.to_network, decodeNetworkValue,
      encodeVec, hlen, hvec]
  | VecRing32 vs =>
    simp only [NetworkValue.constructible, Bool.and_eq_true, decide_eq_true_eq,
      List.all_eq_true] at h
    have hlen := readLE_leBytes 8 vs.length ((vs.map (leBytes 4)).flatten)
      (by have := h.1; norm_num at this ⊢; omega)
    have hvec := readVec_roundtrip 4 vs []
      (fun v hv => by have := h.2 v hv; norm_num at this ⊢; omega)
    rw [List.append_nil] at hvec
    simp [NetworkValue.from_network, NetworkValue.to_network, decodeNetworkValue,
      encodeVec, hlen, hvec]
  | VecRing64 vs =>
    simp only [NetworkValue.constructible, Bool.and_eq_true, decide_eq_true_eq,
      List.all_eq_true] at h
    have hlen := readLE_leBytes 8 vs.length ((vs.map (leBytes 8)).flatten)
      (by have := h.1; norm_num at this ⊢; omega)
    have hvec := readVec_roundtrip 8 vs []
      (fun v hv => by have := h.2 v hv; norm_num at this ⊢; omega)
    rw [List.append_nil] at hvec
    simp [NetworkValue.from_network, NetworkValue.to_network, decodeNetworkValue,
      encodeVec, hlen, hvec]

/-- Witness for C5: a 3-element `VecRing16` round-trips. -/
theorem from_network_to_network_witness :
    NetworkValue.from_network (Except.ok (NetworkValue.VecRing16 [0, 1, 65535]).to_network) =
      Except.ok (NetworkValue.VecRing16 [0, 1, 65535]) :=
  from_network_to_network (NetworkValue.VecRing16 [0, 1, 65535]) (by decide)

/-- C6: on every byte buffer, `from_network` either succeeds on a buffer
that decodes to a `NetworkValue`, or returns the typed decoding error
`"failed to parse value"`; the embedded decoder is a total function, so
no input is answered by anything but one of these two recoverable
outcomes. -/
theorem from_network_total (bytes : List Nat) :
    (∃ v rest, decodeNetworkValue bytes = some (v, rest) ∧
      NetworkValue.from_network (Except.ok bytes) = Except.ok v) ∨
    (decodeNetworkValue bytes = none ∧
      NetworkValue.from_network (Except.ok bytes) =
        Except.error "failed to parse value") := by
  cases hdec : decodeNetworkValue bytes with
  | none =>
    exact Or.inr ⟨rfl, by simp [NetworkValue.from_network, hdec]⟩
  | some p =>
    exact Or.inl ⟨p.1, p.2, by simp [hdec], by simp [NetworkValue.from_network, hdec]⟩

/-! ## C10: `Debug` redaction of the database URLs -/

/-- C10: the debug rendering of the upgrade configurations is insensitive
to the database-URL secrets: any two `UpgradeServerConfig`s agreeing on
everything but `db_url` render identically (the URL printed as the
literal `<redacted>`), and likewise any two `UpgradeClientConfig`s
agreeing on everything but `shares_db_url` and `masks_db_url`. -/
theorem debug_redacts_db_urls (s1 s2 : UpgradeServerConfig)
    (c1 c2 : UpgradeClientConfig)
    (hs : s1.bind_addr = s2.bind_addr ∧ s1.party_id = s2.party_id ∧
      s1.threads = s2.threads ∧ s1.eye = s2.eye)
    (hc : c1.server1 = c2.server1 ∧ c1.server2 = c2.server2 ∧
      c1.server3 = c2.server3 ∧ c1.db_start = c2.db_start ∧
      c1.db_end = c2.db_end ∧ c1.party_id = c2.party_id ∧
      c1.eye = c2.eye ∧ c1.mock = c2.mock) :
    s1.debugFmt = s2.debugFmt ∧ c1.debugFmt = c2.debugFmt := by
  obtain ⟨hs1, hs2, hs3, hs4⟩ := hs
  obtain ⟨hc1, hc2, hc3, hc4, hc5, hc6, hc7, hc8⟩ := hc
  constructor
  · simp [UpgradeServerConfig.debugFmt, hs1, hs2, hs3, hs4]
  · simp [UpgradeClientConfig.debugFmt, hc1, hc2, hc3, hc4, hc5, hc6, hc7, hc8]

/-- Witness for C10: two servers and two clients differing only in their
database URLs render identically. -/
theorem debug_redacts_db_urls_witness :
    UpgradeServerConfig.debugFmt ⟨"0.0.0.0:7000", "postgres://secret-a", 0, 8, Eye.Left⟩ =
      UpgradeServerConfig.debugFmt ⟨"0.0.0.0:7000", "postgres://secret-b", 0, 8, Eye.Left⟩ ∧
    UpgradeClientConfig.debugFmt
        ⟨"h1:8000", "h2:8001", "h3:8002", 0, 10, 1, Eye.Right, false,
          "postgres://shares-a", "postgres://masks-a"⟩ =
      UpgradeClientConfig.debugFmt
        ⟨"h1:8000", "h2:8001", "h3:8002", 0, 10, 1, Eye.Right, false,
          "postgres://shares-b", "postgres://masks-b"⟩ :=
  debug_redacts_db_urls _ _ _ _ ⟨rfl, rfl, rfl, rfl⟩
    ⟨rfl, rfl, rfl, rfl, rfl, rfl, rfl, rfl⟩

end IrisMPC
